import Mathlib

/-!
# Verification of the keyring-store engine

Shallow embedding of the Rust sources under `src/store/src/` (`store.rs`,
`merkle.rs`, `protocol.rs`, `main.rs`) and proofs of the specified
properties.

Modelling conventions:
* A byte string (`Vec<u8>`, `&[u8]`, and the UTF-8 bytes of a `String`
  document id) is a `List Nat`.
* The blake3 hash function is kept abstract: every definition that hashes
  is parameterised by `digest : Bytes → Bytes`.  Concrete evaluations use
  the stand-in `testDigest` defined near the end of the file.
* A redb table is an association list kept strictly sorted by key
  (redb is an ordered-key B-tree store; iteration follows key order).
* Rust's stable `sort_by` on vectors is modelled by a stable insertion
  sort `sortByLe`.
* Failure-free executions are modelled by pure state-passing functions;
  for `ApplyChanges`, whose per-change transaction boundary matters, a
  variant threaded with an explicit commit-failure oracle is also given.
-/

/-- Byte strings (`Vec<u8>` / `&[u8]` / UTF-8 bytes of a Rust `String`). -/
abbrev Bytes : Type := List Nat

/-! ## Byte-wise lexicographic order

Rust's `Ord` for `Vec<u8>` / `String` is byte-wise lexicographic order;
`a.0.cmp(&b.0)` in `merkle.rs` and `Vec::sort` on `String`s use it. -/

/-- Byte-wise lexicographic strict order on byte strings. -/
def bytesLt : Bytes → Bytes → Bool
  | [], [] => false
  | [], _ :: _ => true
  | _ :: _, [] => false
  | a :: as_, b :: bs => if a < b then true else if b < a then false else bytesLt as_ bs

/-- Non-strict byte-wise order, as induced by a `cmp`-based comparator. -/
def bytesLe (a b : Bytes) : Bool := !(bytesLt b a)

theorem bytesLt_irrefl (a : Bytes) : bytesLt a a = false := by
  induction a with
  | nil => rfl
  | cons x xs ih => simp [bytesLt, ih]

theorem bytesLt_asymm {a b : Bytes} (h : bytesLt a b = true) : bytesLt b a = false := by
  induction a generalizing b with
  | nil =>
    cases b with
    | nil => simp [bytesLt] at h
    | cons y ys => simp [bytesLt]
  | cons x xs ih =>
    cases b with
    | nil => simp [bytesLt] at h
    | cons y ys =>
      by_cases hxy : x < y
      · simp [bytesLt, hxy, Nat.lt_asymm hxy, Nat.ne_of_gt hxy]
      · by_cases hyx : y < x
        · simp [bytesLt, hxy, hyx] at h
        · have hxy' : x = y := Nat.le_antisymm (Nat.le_of_not_lt hyx) (Nat.le_of_not_lt hxy)
          subst hxy'
          simp [bytesLt, hxy] at h ⊢
          exact ih h

theorem bytesLt_total {a b : Bytes} (hab : bytesLt a b = false) (hba : bytesLt b a = false) :
    a = b := by
  induction a generalizing b with
  | nil =>
    cases b with
    | nil => rfl
    | cons y ys => simp [bytesLt] at hab
  | cons x xs ih =>
    cases b with
    | nil => simp [bytesLt] at hba
    | cons y ys =>
      by_cases hxy : x < y
      · simp [bytesLt, hxy] at hab
      · by_cases hyx : y < x
        · simp [bytesLt, hyx] at hba
        · have hxy' : x = y := Nat.le_antisymm (Nat.le_of_not_lt hyx) (Nat.le_of_not_lt hxy)
          subst hxy'
          simp [bytesLt, hxy] at hab hba
          simp [ih hab hba]

theorem bytesLt_trans {a b c : Bytes} (hab : bytesLt a b = true) (hbc : bytesLt b c = true) :
    bytesLt a c = true := by
  induction a generalizing b c with
  | nil =>
    cases c with
    | nil =>
      cases b with
      | nil => simp [bytesLt] at hab
      | cons y ys => simp [bytesLt] at hbc
    | cons z zs => simp [bytesLt]
  | cons x xs ih =>
    cases b with
    | nil => simp [bytesLt] at hab
    | cons y ys =>
      cases c with
      | nil => simp [bytesLt] at hbc
      | cons z zs =>
        by_cases hxy : x < y
        · by_cases hyz : y < z
          · simp [bytesLt, Nat.lt_trans hxy hyz]
          · by_cases hzy : z < y
            · simp [bytesLt, hxy, hyz, hzy] at hbc
            · have : y = z := Nat.le_antisymm (Nat.le_of_not_lt hzy) (Nat.le_of_not_lt hyz)
              subst this
              simp [bytesLt, hxy]
        · by_cases hyx : y < x
          · simp [bytesLt, hxy, hyx] at hab
          · have hxy' : x = y := Nat.le_antisymm (Nat.le_of_not_lt hyx) (Nat.le_of_not_lt hxy)
            subst hxy'
            simp [bytesLt, hxy] at hab
            by_cases hxz : x < z
            · simp [bytesLt, hxz]
            · by_cases hzx : z < x
              · simp [bytesLt, hxz, hzx] at hbc
              · have : x = z := Nat.le_antisymm (Nat.le_of_not_lt hzx) (Nat.le_of_not_lt hxz)
                subst this
                simp [bytesLt, hxz] at hbc ⊢
                exact ih hab hbc

theorem bytesLe_total (a b : Bytes) : bytesLe a b = true ∨ bytesLe b a = true := by
  by_cases h : bytesLt b a = true
  · exact Or.inr (by simp [bytesLe, bytesLt_asymm h])
  · exact Or.inl (by simp [bytesLe] at h ⊢; exact h)

theorem bytesLe_trans {a b c : Bytes} (hab : bytesLe a b = true) (hbc : bytesLe b c = true) :
    bytesLe a c = true := by
  simp [bytesLe] at hab hbc ⊢
  by_cases hca : bytesLt c a = true
  · exfalso
    by_cases hbc2 : bytesLt b c = true
    · exact absurd (bytesLt_trans hbc2 hca) (by simp [hab])
    · simp at hbc2
      have hbceq : b = c := bytesLt_total hbc2 hbc
      subst hbceq
      exact absurd hca (by simp [hab])
  · simpa using hca

theorem bytesLt_of_le_of_ne {a b : Bytes} (hle : bytesLe a b = true) (hne : a ≠ b) :
    bytesLt a b = true := by
  simp [bytesLe] at hle
  by_cases h : bytesLt a b = true
  · exact h
  · simp at h
    exact absurd (bytesLt_total h hle) hne

/-! ## Stable insertion sort

Models Rust's stable `Vec::sort_by` / `Vec::sort` (`merkle.rs` lines 20
and 82–83): any stable sort by a total comparator is extensionally the
same function, and insertion sort is stable. -/

/-- Insert `a` in front of the first element it is `le`-below-or-equal. -/
def insertSorted (le : α → α → Bool) (a : α) : List α → List α
  | [] => [a]
  | b :: l => if le a b then a :: b :: l else b :: insertSorted le a l

/-- Stable insertion sort by a boolean comparator. -/
def sortByLe (le : α → α → Bool) : List α → List α
  | [] => []
  | a :: l => insertSorted le a (sortByLe le l)

theorem insertSorted_perm (le : α → α → Bool) (a : α) (l : List α) :
    (insertSorted le a l).Perm (a :: l) := by
  induction l with
  | nil => exact List.Perm.refl _
  | cons b t ih =>
    by_cases h : le a b = true
    · simp [insertSorted, h]
    · simp [insertSorted, h]
      exact ((ih.cons b).trans (List.Perm.swap a b t))

theorem sortByLe_perm (le : α → α → Bool) (l : List α) : (sortByLe le l).Perm l := by
  induction l with
  | nil => exact List.Perm.refl _
  | cons a t ih =>
    exact (insertSorted_perm le a (sortByLe le t)).trans (ih.cons a)

theorem insertSorted_pairwise (le : α → α → Bool)
    (htot : ∀ x y, le x y = true ∨ le y x = true)
    (htrans : ∀ x y z, le x y = true → le y z = true → le x z = true)
    (a : α) (l : List α) (hl : l.Pairwise (fun x y => le x y = true)) :
    (insertSorted le a l).Pairwise (fun x y => le x y = true) := by
  induction l with
  | nil => simp [insertSorted]
  | cons b t ih =>
    rcases List.pairwise_cons.mp hl with ⟨hb, ht⟩
    by_cases h : le a b = true
    · simp only [insertSorted, if_pos h]
      refine List.pairwise_cons.mpr ⟨?_, hl⟩
      intro x hx
      rcases List.mem_cons.mp hx with hx' | hx'
      · subst hx'
        exact h
      · exact htrans a b x h (hb x hx')
    · simp only [insertSorted, if_neg h]
      refine List.pairwise_cons.mpr ⟨?_, ih ht⟩
      intro x hx
      have hmem := (insertSorted_perm le a t).mem_iff.mp hx
      rcases List.mem_cons.mp hmem with hx' | hx'
      · subst hx'
        rcases htot b x with hbx | hxb
        · exact hbx
        · exact absurd hxb h
      · exact hb x hx'

theorem sortByLe_pairwise (le : α → α → Bool)
    (htot : ∀ x y, le x y = true ∨ le y x = true)
    (htrans : ∀ x y z, le x y = true → le y z = true → le x z = true)
    (l : List α) : (sortByLe le l).Pairwise (fun x y => le x y = true) := by
  induction l with
  | nil => simp [sortByLe]
  | cons a t ih => exact insertSorted_pairwise le htot htrans a _ ih

/-! ## Ordered association-list tables

Model of a redb table (`store.rs` table definitions): an association
list kept strictly sorted by key.  `alInsert` is `Table::insert`
(upsert), `alRemove` is `Table::remove`, `alLookup` is `Table::get`, and
the underlying list itself is `Table::iter` (key order). -/

/-- One redb table: key/value pairs in ascending key order. -/
abbrev Table : Type := List (Bytes × Bytes)

/-- `Table::get`. -/
def alLookup (k : Bytes) (l : Table) : Option Bytes :=
  (l.find? (fun p => decide (p.1 = k))).map Prod.snd

/-- `Table::insert` (upsert), preserving ascending key order. -/
def alInsert (k v : Bytes) : Table → Table
  | [] => [(k, v)]
  | (k', v') :: rest =>
    if bytesLt k k' then (k, v) :: (k', v') :: rest
    else if k = k' then (k, v) :: rest
    else (k', v') :: alInsert k v rest

/-- `Table::remove`. -/
def alRemove (k : Bytes) (l : Table) : Table :=
  l.filter (fun p => !(decide (p.1 = k)))

/-- Key list of a table after a sorted insert. -/
def keyIns (k : Bytes) : List Bytes → List Bytes
  | [] => [k]
  | k' :: rest =>
    if bytesLt k k' then k :: k' :: rest
    else if k = k' then k :: rest
    else k' :: keyIns k rest

/-- Strict ascending key order of one table. -/
abbrev tableSorted (l : Table) : Prop :=
  l.Pairwise (fun p q => bytesLt p.1 q.1 = true)

theorem alLookup_nil (k : Bytes) : alLookup k [] = none := rfl

theorem alLookup_cons (k k' v' : Bytes) (l : Table) :
    alLookup k ((k', v') :: l) = if k' = k then some v' else alLookup k l := by
  by_cases h : k' = k <;> simp [alLookup, List.find?, h]

theorem alLookup_insert_self (k v : Bytes) (l : Table) :
    alLookup k (alInsert k v l) = some v := by
  induction l with
  | nil => simp [alInsert, alLookup_cons]
  | cons p rest ih =>
    obtain ⟨k', v'⟩ := p
    by_cases h1 : bytesLt k k' = true
    · simp [alInsert, h1, alLookup_cons]
    · by_cases h2 : k = k'
      · subst h2
        simp [alInsert, bytesLt_irrefl, alLookup_cons]
      · have h2' : k' ≠ k := fun hh => h2 hh.symm
        simp [alInsert, h1, h2, alLookup_cons, h2', ih]

theorem alLookup_insert_ne (k v j : Bytes) (l : Table) (hjk : j ≠ k) :
    alLookup j (alInsert k v l) = alLookup j l := by
  have hkj : k ≠ j := fun hh => hjk hh.symm
  induction l with
  | nil => simp [alInsert, alLookup_cons, hkj]
  | cons p rest ih =>
    obtain ⟨k', v'⟩ := p
    by_cases h1 : bytesLt k k' = true
    · simp [alInsert, h1, alLookup_cons, hkj]
    · by_cases h2 : k = k'
      · subst h2
        simp [alInsert, bytesLt_irrefl, alLookup_cons, hkj]
      · simp [alInsert, h1, h2, alLookup_cons, ih]

theorem alLookup_remove (k j : Bytes) (l : Table) :
    alLookup j (alRemove k l) = if j = k then none else alLookup j l := by
  induction l with
  | nil => by_cases h : j = k <;> simp [alRemove, alLookup_nil, h]
  | cons p rest ih =>
    obtain ⟨k', v'⟩ := p
    by_cases hk : k' = k
    · subst hk
      have hrem : alRemove k' ((k', v') :: rest) = alRemove k' rest := by
        simp [alRemove, List.filter]
      rw [hrem, ih]
      by_cases hj : j = k'
      · simp [hj]
      · have hj' : k' ≠ j := fun hh => hj hh.symm
        simp [hj, alLookup_cons, hj']
    · have hrem : alRemove k ((k', v') :: rest) = (k', v') :: alRemove k rest := by
        simp [alRemove, List.filter, hk]
      rw [hrem, alLookup_cons]
      by_cases hj : k' = j
      · subst hj
        simp [hk, alLookup_cons]
      · rw [ih]
        by_cases hjk : j = k <;> simp [hjk, alLookup_cons, hj, hk]

theorem alLookup_mem {k v : Bytes} {l : Table} (h : alLookup k l = some v) : (k, v) ∈ l := by
  induction l with
  | nil => simp [alLookup_nil] at h
  | cons p rest ih =>
    obtain ⟨k', v'⟩ := p
    rw [alLookup_cons] at h
    by_cases hk : k' = k
    · subst hk
      simp at h
      simp [h]
    · simp [hk] at h
      exact List.mem_cons.mpr (Or.inr (ih h))

theorem alLookup_isSome_of_key_mem {k : Bytes} {l : Table} (h : k ∈ l.map Prod.fst) :
    ∃ v, alLookup k l = some v := by
  induction l with
  | nil => simp at h
  | cons p rest ih =>
    obtain ⟨k', v'⟩ := p
    by_cases hk : k' = k
    · exact ⟨v', by simp [alLookup_cons, hk]⟩
    · have h' : k ∈ rest.map Prod.fst := by
        have h2 : k ∈ k' :: rest.map Prod.fst := by simpa using h
        rcases List.mem_cons.mp h2 with h3 | h3
        · exact absurd h3.symm hk
        · exact h3
      rcases ih h' with ⟨v, hv⟩
      exact ⟨v, by simp [alLookup_cons, hk, hv]⟩

theorem mem_alLookup {k v : Bytes} {l : Table} (hs : tableSorted l) (h : (k, v) ∈ l) :
    alLookup k l = some v := by
  induction l with
  | nil => simp at h
  | cons p rest ih =>
    obtain ⟨k', v'⟩ := p
    rcases List.pairwise_cons.mp hs with ⟨hhead, htail⟩
    rcases List.mem_cons.mp h with h | h
    · rw [alLookup_cons]
      have h1 : k = k' := congrArg Prod.fst h
      have h2 : v = v' := congrArg Prod.snd h
      simp [h1, h2]
    · have hk : k' ≠ k := by
        intro hh
        subst hh
        have := hhead (k', v) h
        simp [bytesLt_irrefl] at this
      rw [alLookup_cons, if_neg hk]
      exact ih htail h

theorem map_fst_alInsert (k v : Bytes) (l : Table) :
    (alInsert k v l).map Prod.fst = keyIns k (l.map Prod.fst) := by
  induction l with
  | nil => simp [alInsert, keyIns]
  | cons p rest ih =>
    obtain ⟨k', v'⟩ := p
    by_cases h1 : bytesLt k k' = true
    · simp [alInsert, keyIns, h1]
    · by_cases h2 : k = k'
      · subst h2
        simp [alInsert, keyIns, bytesLt_irrefl]
      · simp [alInsert, keyIns, h1, h2, ih]

theorem map_fst_alRemove (k : Bytes) (l : Table) :
    (alRemove k l).map Prod.fst = (l.map Prod.fst).filter (fun j => !(decide (j = k))) := by
  induction l with
  | nil => simp [alRemove]
  | cons p rest ih =>
    obtain ⟨k', v'⟩ := p
    by_cases h : k' = k
    · simp [alRemove, List.filter, h] at ih ⊢
      exact ih
    · simp [alRemove, List.filter, h] at ih ⊢
      exact ih

theorem mem_keyIns {j k : Bytes} {ks : List Bytes} (h : j ∈ keyIns k ks) :
    j = k ∨ j ∈ ks := by
  induction ks with
  | nil => simpa [keyIns] using h
  | cons k' rest ih =>
    by_cases h1 : bytesLt k k' = true
    · simp only [keyIns, if_pos h1] at h
      rcases List.mem_cons.mp h with h | h
      · exact Or.inl h
      · exact Or.inr h
    · by_cases h2 : k = k'
      · subst h2
        simp only [keyIns, if_neg h1, if_pos rfl] at h
        rcases List.mem_cons.mp h with h | h
        · exact Or.inl h
        · exact Or.inr (List.mem_cons.mpr (Or.inr h))
      · simp only [keyIns, if_neg h1, if_neg h2] at h
        rcases List.mem_cons.mp h with h | h
        · exact Or.inr (List.mem_cons.mpr (Or.inl h))
        · rcases ih h with h' | h'
          · exact Or.inl h'
          · exact Or.inr (List.mem_cons.mpr (Or.inr h'))

theorem sorted_alInsert {k v : Bytes} {l : Table} (hs : tableSorted l) :
    tableSorted (alInsert k v l) := by
  induction l with
  | nil => simp [alInsert, tableSorted]
  | cons p rest ih =>
    obtain ⟨k', v'⟩ := p
    rcases List.pairwise_cons.mp hs with ⟨hhead, htail⟩
    by_cases h1 : bytesLt k k' = true
    · simp only [alInsert, if_pos h1]
      refine List.pairwise_cons.mpr ⟨?_, hs⟩
      intro q hq
      rcases List.mem_cons.mp hq with hq | hq
      · subst hq
        exact h1
      · exact bytesLt_trans h1 (hhead q hq)
    · by_cases h2 : k = k'
      · subst h2
        simp only [alInsert, if_neg h1, if_pos rfl]
        exact List.pairwise_cons.mpr ⟨fun q hq => hhead q hq, htail⟩
      · have h3 : bytesLt k' k = true := by
          by_cases hh : bytesLt k' k = true
          · exact hh
          · simp at h1 hh
            exact absurd (bytesLt_total h1 hh) h2
        simp only [alInsert, if_neg h1, if_neg h2]
        refine List.pairwise_cons.mpr ⟨?_, ih htail⟩
        intro q hq
        have hq1 : q.1 ∈ (alInsert k v rest).map Prod.fst := List.mem_map_of_mem Prod.fst hq
        rw [map_fst_alInsert] at hq1
        rcases mem_keyIns hq1 with hq' | hq'
        · show bytesLt k' q.1 = true
          rw [hq']
          exact h3
        · rcases List.mem_map.mp hq' with ⟨q', hq'mem, hq'eq⟩
          have hh := hhead q' hq'mem
          show bytesLt k' q.1 = true
          rw [← hq'eq]
          exact hh

theorem sorted_alRemove {k : Bytes} {l : Table} (hs : tableSorted l) :
    tableSorted (alRemove k l) :=
  hs.sublist (List.filter_sublist l)

theorem mem_alInsert {p : Bytes × Bytes} {k v : Bytes} {l : Table}
    (h : p ∈ alInsert k v l) : p = (k, v) ∨ p ∈ l := by
  induction l with
  | nil => simpa [alInsert] using h
  | cons q rest ih =>
    obtain ⟨k', v'⟩ := q
    by_cases h1 : bytesLt k k' = true
    · simp only [alInsert, if_pos h1] at h
      rcases List.mem_cons.mp h with h | h
      · exact Or.inl h
      · exact Or.inr h
    · by_cases h2 : k = k'
      · subst h2
        simp only [alInsert, if_neg h1, if_pos rfl] at h
        rcases List.mem_cons.mp h with h | h
        · exact Or.inl h
        · exact Or.inr (List.mem_cons.mpr (Or.inr h))
      · simp only [alInsert, if_neg h1, if_neg h2] at h
        rcases List.mem_cons.mp h with h | h
        · exact Or.inr (List.mem_cons.mpr (Or.inl h))
        · rcases ih h with h' | h'
          · exact Or.inl h'
          · exact Or.inr (List.mem_cons.mpr (Or.inr h'))

theorem mem_alRemove {p : Bytes × Bytes} {k : Bytes} {l : Table}
    (h : p ∈ alRemove k l) : p ∈ l :=
  List.mem_of_mem_filter h

/-! ## The store (`store.rs`)

The four tables of `Store`, and the operations of `impl Store`.  Each
Rust operation runs inside one committed redb transaction; the pure model
maps a state to the state after that committed transaction.  A
transaction that fails to commit leaves the store unchanged, so states of
failure-free runs are exactly the committed states. -/

/-- The `Store` struct: the four redb tables of `keyring.redb`. -/
structure Store where
  blobs : Table
  documents : Table
  doc_data : Table
  doc_hashes : Table
deriving DecidableEq

/-- The freshly opened store: all four tables empty. -/
def emptyStore : Store := ⟨[], [], [], []⟩

/-- `Store::put_blob`: hash the data, insert under the hash, return the hash. -/
def put_blob (digest : Bytes → Bytes) (s : Store) (data : Bytes) : Store × Bytes :=
  let hash := digest data
  ({ s with blobs := alInsert hash data s.blobs }, hash)

/-- `Store::get_blob`: read-only lookup. -/
def get_blob (s : Store) (hash : Bytes) : Option Bytes :=
  alLookup hash s.blobs

/-- `Store::has_blob`: read-only existence check. -/
def has_blob (s : Store) (hash : Bytes) : Bool :=
  (alLookup hash s.blobs).isSome

/-- `Store::put_document`: compute `state_hash = digest(crdt_state)` and
update all three document tables in one write transaction. -/
def put_document (digest : Bytes → Bytes) (s : Store) (id meta crdt_state : Bytes) : Store :=
  let state_hash := digest crdt_state
  { s with
    documents := alInsert id meta s.documents
    doc_data := alInsert id crdt_state s.doc_data
    doc_hashes := alInsert id state_hash s.doc_hashes }

/-- `Store::get_document`: fetch metadata and CRDT state; `Some` only when
both tables hold the id (the Rust `match` on the pair of lookups). -/
def get_document (s : Store) (id : Bytes) : Option (Bytes × Bytes) :=
  match alLookup id s.documents, alLookup id s.doc_data with
  | some m, some d => some (m, d)
  | _, _ => none

/-- `Store::delete_document`: remove the id from all three tables; the
returned Bool is whether the id was present in `documents`. -/
def delete_document (s : Store) (id : Bytes) : Store × Bool :=
  ({ s with
     documents := alRemove id s.documents
     doc_data := alRemove id s.doc_data
     doc_hashes := alRemove id s.doc_hashes },
   (alLookup id s.documents).isSome)

/-- `Store::list_documents`: ids in `documents` table key order. -/
def list_documents (s : Store) : List Bytes :=
  s.documents.map Prod.fst

/-- `Store::get_doc_hash`: read-only lookup in `doc_hashes`. -/
def get_doc_hash (s : Store) (id : Bytes) : Option Bytes :=
  alLookup id s.doc_hashes

/-- `Store::get_doc_hashes`: look up each id, omitting absent ones, in
input order. -/
def get_doc_hashes (s : Store) (ids : List Bytes) : List (Bytes × Bytes) :=
  ids.filterMap (fun id => (alLookup id s.doc_hashes).map (fun v => (id, v)))

/-- `Store::all_doc_hashes`: full iteration of `doc_hashes` in key order. -/
def all_doc_hashes (s : Store) : List (Bytes × Bytes) :=
  s.doc_hashes

/-! ## Merkle utilities (`merkle.rs`) -/

/-- Key-order comparator on `(doc_id, hash)` pairs: `a.0.cmp(&b.0)` in
`compute_root`'s `sort_by`. -/
def pairLe (a b : Bytes × Bytes) : Bool := bytesLe a.1 b.1

/-- One pass of the inner `while i + 1 < layer.len()` loop of
`compute_root`: hash adjacent pairs, promote a final odd element. -/
def hashLayer (digest : Bytes → Bytes) : List Bytes → List Bytes
  | [] => []
  | [a] => [a]
  | a :: b :: rest => digest (a ++ b) :: hashLayer digest rest

theorem hashLayer_length (digest : Bytes → Bytes) (l : List Bytes) :
    (hashLayer digest l).length = (l.length + 1) / 2 := by
  induction l using hashLayer.induct digest with
  | case1 => rfl
  | case2 a => simp [hashLayer]
  | case3 a b rest ih =>
    simp [hashLayer, ih]
    omega

/-- The outer `while layer.len() > 1` loop of `compute_root`; the `[]`
case is unreachable from `compute_root` (the input layer is nonempty). -/
def collapse (digest : Bytes → Bytes) (layer : List Bytes) : Bytes :=
  match layer with
  | [] => []
  | [h] => h
  | a :: b :: rest => collapse digest (hashLayer digest (a :: b :: rest))
termination_by layer.length
decreasing_by
  simp [hashLayer, hashLayer_length]
  omega

/-- `compute_root` (`merkle.rs` lines 14–42): all-zero root for an empty
input, otherwise sort by doc id and iteratively hash pairs. -/
def compute_root (digest : Bytes → Bytes) (pairs : List (Bytes × Bytes)) : Bytes :=
  match pairs with
  | [] => List.replicate 32 0
  | _ :: _ => collapse digest ((sortByLe pairLe pairs).map Prod.snd)

/-- `diff_roots` (`merkle.rs` lines 48–85).  The Rust code iterates a
`HashSet` holding the union of the two key sets, then sorts both result
vectors; since every union key is visited exactly once and the outputs
are sorted afterwards, the arbitrary hash-set iteration order is modelled
by iterating the deduplicated concatenation of the key lists.  The
`HashMap` lookups are modelled by first-match association lookup, which
agrees with the map for the unique-id inputs the protocol produces. -/
def sendCond (lcl rmt : List (Bytes × Bytes)) (k : Bytes) : Bool :=
  match alLookup k lcl, alLookup k rmt with
  | some lh, some rh => decide (lh ≠ rh)
  | some _, none => true
  | _, _ => false

def requestCond (lcl rmt : List (Bytes × Bytes)) (k : Bytes) : Bool :=
  match alLookup k lcl, alLookup k rmt with
  | some lh, some rh => decide (lh ≠ rh)
  | none, some _ => true
  | _, _ => false

def diff_roots (lcl rmt : List (Bytes × Bytes)) : List Bytes × List Bytes :=
  let allKeys := (lcl.map Prod.fst ++ rmt.map Prod.fst).dedup
  (sortByLe bytesLe (allKeys.filter (sendCond lcl rmt)),
   sortByLe bytesLe (allKeys.filter (requestCond lcl rmt)))

/-! ## Wire protocol types (`protocol.rs`) -/

/-- `Root { doc_id, hash }`. -/
structure Root where
  doc_id : Bytes
  hash : Bytes
deriving DecidableEq

/-- `Change { doc_id, data, hash }`: a sync transfer record.  Note it has
no metadata field. -/
structure Change where
  doc_id : Bytes
  data : Bytes
  hash : Bytes
deriving DecidableEq

/-- The `Request` enum. -/
inductive Request where
  | PutBlob (data : Bytes)
  | GetBlob (hash : Bytes)
  | HasBlob (hash : Bytes)
  | PutDocument (id meta crdt_state : Bytes)
  | GetDocument (id : Bytes)
  | DeleteDocument (id : Bytes)
  | ListDocuments
  | GetRoots (doc_ids : List Bytes)
  | GetChanges (known_roots : List Bytes)
  | ApplyChanges (changes : List Change)
deriving DecidableEq

/-- The `Response` enum. -/
inductive Response where
  | Ok
  | Blob (data : Bytes)
  | BlobStored (hash : Bytes)
  | BlobExists (exists_ : Bool)
  | Document (id meta crdt_state : Bytes)
  | DocumentList (ids : List Bytes)
  | NotFound
  | Roots (roots : List Root)
  | Changes (changes : List Change)
  | SyncDiff (to_send to_request : List Bytes)
  | Error (message : String)
deriving DecidableEq

/-! ## Dispatcher (`main.rs` `handle_request`)

The pure model covers the failure-free executions: every storage
operation commits.  (Storage errors are surfaced to the peer as
`Error{message}` without changing the store — a failed transaction rolls
back — so the committed states of a faulty run form a subsequence of the
states below; `applyChangesOr` further down models the one handler where
a mid-batch failure leaves a visibly incomplete result.) -/

/-- The `ApplyChanges` loop body of `handle_request`: skip a change whose
advertised hash equals the stored hash, otherwise store the incoming data
with empty metadata via `put_document`. -/
def applyChangesPure (digest : Bytes → Bytes) (s : Store) : List Change → Store
  | [] => s
  | c :: rest =>
    match get_doc_hash s c.doc_id with
    | some existing =>
      if existing = c.hash then applyChangesPure digest s rest
      else applyChangesPure digest (put_document digest s c.doc_id [] c.data) rest
    | none => applyChangesPure digest (put_document digest s c.doc_id [] c.data) rest

/-- `handle_request` (`main.rs` lines 57–166), failure-free executions. -/
def handle_request (digest : Bytes → Bytes) (s : Store) : Request → Store × Response
  | Request.PutBlob data =>
    let r := put_blob digest s data
    (r.1, Response.BlobStored r.2)
  | Request.GetBlob hash =>
    match get_blob s hash with
    | some data => (s, Response.Blob data)
    | none => (s, Response.NotFound)
  | Request.HasBlob hash => (s, Response.BlobExists (has_blob s hash))
  | Request.PutDocument id meta crdt_state =>
    (put_document digest s id meta crdt_state, Response.Ok)
  | Request.GetDocument id =>
    match get_document s id with
    | some (meta, crdt_state) => (s, Response.Document id meta crdt_state)
    | none => (s, Response.NotFound)
  | Request.DeleteDocument id =>
    let r := delete_document s id
    (r.1, if r.2 then Response.Ok else Response.NotFound)
  | Request.ListDocuments => (s, Response.DocumentList (list_documents s))
  | Request.GetRoots doc_ids =>
    let pairs := if doc_ids.isEmpty then all_doc_hashes s else get_doc_hashes s doc_ids
    (s, Response.Roots (pairs.map (fun p => ⟨p.1, p.2⟩)))
  | Request.GetChanges known_roots =>
    let changes := (all_doc_hashes s).filterMap (fun p =>
      if p.2 ∈ known_roots then none
      else
        match get_document s p.1 with
        | some (_, crdt_state) => some ⟨p.1, crdt_state, p.2⟩
        | none => none)
    (s, Response.Changes changes)
  | Request.ApplyChanges changes => (applyChangesPure digest s changes, Response.Ok)

/-- The `ApplyChanges` loop with an explicit commit-failure oracle: the
`n`-th `put_document` write transaction fails to commit iff the `n`-th
oracle entry is `true` (entries beyond the oracle succeed).  A failed
commit leaves the store unchanged and the handler returns
`Error{message}` at once, exactly like the early `return` in `main.rs`
lines 159–161. -/
def applyChangesOr (digest : Bytes → Bytes) :
    Store → List Bool → List Change → Store × List Bool × Response
  | s, oracle, [] => (s, oracle, Response.Ok)
  | s, oracle, c :: rest =>
    match get_doc_hash s c.doc_id with
    | some existing =>
      if existing = c.hash then applyChangesOr digest s oracle rest
      else
        if oracle.headD false then (s, oracle.tail, Response.Error "commit failed")
        else applyChangesOr digest (put_document digest s c.doc_id [] c.data) oracle.tail rest
    | none =>
      if oracle.headD false then (s, oracle.tail, Response.Error "commit failed")
      else applyChangesOr digest (put_document digest s c.doc_id [] c.data) oracle.tail rest

/-- States reachable from a fresh store by a sequence of handled
requests. -/
inductive Reachable (digest : Bytes → Bytes) : Store → Prop where
  | init : Reachable digest emptyStore
  | step (s : Store) (req : Request) (h : Reachable digest s) :
      Reachable digest (handle_request digest s req).1

/-! ## Framing and the session loop (`main.rs` `read_frame` / `main`) -/

/-- `u32::from_be_bytes` on a 4-byte big-endian length prefix. -/
def beU32 (b : List Nat) : Nat :=
  match b with
  | [b0, b1, b2, b3] => ((b0 * 256 + b1) * 256 + b2) * 256 + b3
  | _ => 0

/-- `read_frame`: `Ok none` is EOF (the Rust code maps an
`UnexpectedEof` from `read_exact` on the 4-byte length prefix to
`Ok(None)`, so this branch is taken for ANY input of fewer than 4 bytes,
not only an empty one); a payload shorter than the announced length is
the fatal `reading frame body` error. -/
def read_frame (input : List Nat) : Except String (Option (List Nat × List Nat)) :=
  if input.length < 4 then Except.ok none
  else if (input.drop 4).length < beU32 (input.take 4) then Except.error "reading frame body"
  else
    Except.ok (some ((input.drop 4).take (beU32 (input.take 4)),
      (input.drop 4).drop (beU32 (input.take 4))))

theorem read_frame_rest_length_lt {input frame rest : List Nat}
    (h : read_frame input = Except.ok (some (frame, rest))) : rest.length < input.length := by
  unfold read_frame at h
  by_cases h4 : input.length < 4
  · rw [if_pos h4] at h
    exact absurd h (by simp)
  · rw [if_neg h4] at h
    by_cases hlen : (input.drop 4).length < beU32 (input.take 4)
    · rw [if_pos hlen] at h
      exact absurd h (by simp)
    · rw [if_neg hlen] at h
      simp only [Except.ok.injEq, Option.some.injEq, Prod.mk.injEq] at h
      have h2 := h.2
      have hl : rest.length = input.length - 4 - beU32 (input.take 4) := by
        rw [← h2]
        simp
        omega
      omega

/-- The `main` frame loop: read a frame, decode it (a decode failure is
the fatal `decoding request frame` error), handle the request, emit the
encoded response, repeat until EOF.  `Except.ok` is the clean-shutdown
path (process exit code 0); `Except.error` is the fatal path (`main`
returns `Err`, nonzero exit).  `decode` and `encode` stand for the
bincode codec on `(ref_id, Request)` / `(ref_id, Response)` pairs. -/
def runSession (digest : Bytes → Bytes) (decode : List Nat → Option (Nat × Request))
    (encode : Nat → Response → List Nat) (s : Store) (input : List Nat) :
    Except String (Store × List (List Nat)) :=
  match hrf : read_frame input with
  | Except.error e => Except.error e
  | Except.ok none => Except.ok (s, [])
  | Except.ok (some (frame, rest)) =>
    match decode frame with
    | none => Except.error "decoding request frame"
    | some (refId, req) =>
      let hr := handle_request digest s req
      match runSession digest decode encode hr.1 rest with
      | Except.error e => Except.error e
      | Except.ok (sEnd, outs) => Except.ok (sEnd, encode refId hr.2 :: outs)
termination_by input.length
decreasing_by
  exact read_frame_rest_length_lt hrf

/-! ## Store invariants -/

/-- All four tables are strictly sorted by key (redb table shape). -/
def storeWF (s : Store) : Prop :=
  tableSorted s.blobs ∧ tableSorted s.documents ∧ tableSorted s.doc_data ∧
    tableSorted s.doc_hashes

/-- Tri-consistency: the three document tables hold exactly the same ids,
in the same (key) order. -/
def triCon (s : Store) : Prop :=
  s.documents.map Prod.fst = s.doc_data.map Prod.fst ∧
    s.doc_data.map Prod.fst = s.doc_hashes.map Prod.fst

/-- Every stored state hash is the digest of the stored CRDT state. -/
def hashOK (digest : Bytes → Bytes) (s : Store) : Prop :=
  ∀ id h, alLookup id s.doc_hashes = some h →
    ∃ d, alLookup id s.doc_data = some d ∧ h = digest d

/-- The conjunction of the three store invariants. -/
def storeInv (digest : Bytes → Bytes) (s : Store) : Prop :=
  storeWF s ∧ triCon s ∧ hashOK digest s

theorem storeInv_empty (digest : Bytes → Bytes) : storeInv digest emptyStore := by
  refine ⟨⟨?_, ?_, ?_, ?_⟩, ⟨rfl, rfl⟩, ?_⟩ <;>
    simp [emptyStore, tableSorted, hashOK, alLookup_nil]

theorem storeInv_put_blob {digest : Bytes → Bytes} {s : Store} (hinv : storeInv digest s)
    (data : Bytes) : storeInv digest (put_blob digest s data).1 := by
  obtain ⟨⟨hb, hd, hdd, hdh⟩, htri, hhash⟩ := hinv
  exact ⟨⟨sorted_alInsert hb, hd, hdd, hdh⟩, htri, hhash⟩

theorem storeInv_put_document {digest : Bytes → Bytes} {s : Store} (hinv : storeInv digest s)
    (id meta crdt_state : Bytes) : storeInv digest (put_document digest s id meta crdt_state) := by
  obtain ⟨⟨hb, hd, hdd, hdh⟩, ⟨ht1, ht2⟩, hhash⟩ := hinv
  refine ⟨⟨hb, sorted_alInsert hd, sorted_alInsert hdd, sorted_alInsert hdh⟩, ?_, ?_⟩
  · constructor
    · show (alInsert id meta s.documents).map Prod.fst
        = (alInsert id crdt_state s.doc_data).map Prod.fst
      rw [map_fst_alInsert, map_fst_alInsert, ht1]
    · show (alInsert id crdt_state s.doc_data).map Prod.fst
        = (alInsert id (digest crdt_state) s.doc_hashes).map Prod.fst
      rw [map_fst_alInsert, map_fst_alInsert, ht2]
  · intro j h hj
    by_cases hjid : j = id
    · subst hjid
      show ∃ d, alLookup j (alInsert j crdt_state s.doc_data) = some d ∧ h = digest d
      rw [alLookup_insert_self]
      have : alLookup j (alInsert j (digest crdt_state) s.doc_hashes) = some (digest crdt_state) :=
        alLookup_insert_self j (digest crdt_state) s.doc_hashes
      rw [show (put_document digest s j meta crdt_state).doc_hashes
            = alInsert j (digest crdt_state) s.doc_hashes from rfl, this] at hj
      exact ⟨crdt_state, rfl, by injection hj with hj'; exact hj'.symm⟩
    · rw [show (put_document digest s id meta crdt_state).doc_hashes
            = alInsert id (digest crdt_state) s.doc_hashes from rfl,
          alLookup_insert_ne id (digest crdt_state) j s.doc_hashes hjid] at hj
      rcases hhash j h hj with ⟨d, hd', hdig⟩
      refine ⟨d, ?_, hdig⟩
      show alLookup j (alInsert id crdt_state s.doc_data) = some d
      rw [alLookup_insert_ne id crdt_state j s.doc_data hjid]
      exact hd'

theorem storeInv_delete_document {digest : Bytes → Bytes} {s : Store} (hinv : storeInv digest s)
    (id : Bytes) : storeInv digest (delete_document s id).1 := by
  obtain ⟨⟨hb, hd, hdd, hdh⟩, ⟨ht1, ht2⟩, hhash⟩ := hinv
  refine ⟨⟨hb, sorted_alRemove hd, sorted_alRemove hdd, sorted_alRemove hdh⟩, ?_, ?_⟩
  · constructor
    · show (alRemove id s.documents).map Prod.fst = (alRemove id s.doc_data).map Prod.fst
      rw [map_fst_alRemove, map_fst_alRemove, ht1]
    · show (alRemove id s.doc_data).map Prod.fst = (alRemove id s.doc_hashes).map Prod.fst
      rw [map_fst_alRemove, map_fst_alRemove, ht2]
  · intro j h hj
    rw [show (delete_document s id).1.doc_hashes = alRemove id s.doc_hashes from rfl,
        alLookup_remove] at hj
    by_cases hjid : j = id
    · simp [hjid] at hj
    · rw [if_neg hjid] at hj
      rcases hhash j h hj with ⟨d, hd', hdig⟩
      refine ⟨d, ?_, hdig⟩
      show alLookup j (alRemove id s.doc_data) = some d
      rw [alLookup_remove, if_neg hjid]
      exact hd'

theorem storeInv_applyChangesPure {digest : Bytes → Bytes} {s : Store} (hinv : storeInv digest s)
    (cs : List Change) : storeInv digest (applyChangesPure digest s cs) := by
  induction cs generalizing s with
  | nil => exact hinv
  | cons c rest ih =>
    show storeInv digest (applyChangesPure digest s (c :: rest))
    rw [applyChangesPure]
    cases get_doc_hash s c.doc_id with
    | none => exact ih (storeInv_put_document hinv c.doc_id [] c.data)
    | some existing =>
      by_cases hh : existing = c.hash
      · simp only [hh, if_pos rfl]
        exact ih hinv
      · simp only [if_neg hh]
        exact ih (storeInv_put_document hinv c.doc_id [] c.data)

theorem reachable_inv {digest : Bytes → Bytes} {s : Store} (hr : Reachable digest s) :
    storeInv digest s := by
  induction hr with
  | init => exact storeInv_empty digest
  | step s' req hr' ih =>
    cases req with
    | PutBlob data => exact storeInv_put_blob ih data
    | GetBlob hash =>
      show storeInv digest (handle_request digest s' (Request.GetBlob hash)).1
      rw [handle_request]
      cases get_blob s' hash <;> exact ih
    | HasBlob hash => exact ih
    | PutDocument id meta crdt_state => exact storeInv_put_document ih id meta crdt_state
    | GetDocument id =>
      show storeInv digest (handle_request digest s' (Request.GetDocument id)).1
      rw [handle_request]
      cases hgd : get_document s' id with
      | none => exact ih
      | some md =>
        obtain ⟨m, d⟩ := md
        exact ih
    | DeleteDocument id => exact storeInv_delete_document ih id
    | ListDocuments => exact ih
    | GetRoots doc_ids => exact ih
    | GetChanges known_roots => exact ih
    | ApplyChanges changes => exact storeInv_applyChangesPure ih changes

/-- When the digest function makes 32-byte values (blake3 does), every
blob key and every stored state hash in a reachable store is 32 bytes. -/
theorem reachable_digest_lengths {digest : Bytes → Bytes}
    (h32 : ∀ b, (digest b).length = 32) {s : Store} (hr : Reachable digest s) :
    (∀ p ∈ s.blobs, p.1.length = 32) ∧ (∀ p ∈ s.doc_hashes, p.2.length = 32) := by
  induction hr with
  | init => exact ⟨by simp [emptyStore], by simp [emptyStore]⟩
  | step s' req hr' ih =>
    obtain ⟨ihb, ihh⟩ := ih
    have happly : ∀ cs t, (∀ p ∈ Store.blobs t, (p.1 : Bytes).length = 32) →
        (∀ p ∈ Store.doc_hashes t, (p.2 : Bytes).length = 32) →
        (∀ p ∈ Store.blobs (applyChangesPure digest t cs), (p.1 : Bytes).length = 32) ∧
        (∀ p ∈ Store.doc_hashes (applyChangesPure digest t cs), (p.2 : Bytes).length = 32) := by
      intro cs
      induction cs with
      | nil => exact fun t hb hh => ⟨hb, hh⟩
      | cons c rest ihc =>
        intro t hb hh
        show (∀ p ∈ Store.blobs (applyChangesPure digest t (c :: rest)), (p.1 : Bytes).length = 32) ∧ _
        rw [applyChangesPure]
        have hput : ∀ p ∈ Store.doc_hashes (put_document digest t c.doc_id [] c.data),
            (p.2 : Bytes).length = 32 := by
          intro p hp
          rcases mem_alInsert hp with hp' | hp'
          · rw [hp']
            exact h32 c.data
          · exact hh p hp'
        cases get_doc_hash t c.doc_id with
        | none => exact ihc _ hb hput
        | some existing =>
          by_cases hc : existing = c.hash
          · simp only [hc, if_pos rfl]
            exact ihc _ hb hh
          · simp only [if_neg hc]
            exact ihc _ hb hput
    cases req with
    | PutBlob data =>
      refine ⟨?_, ihh⟩
      intro p hp
      rcases mem_alInsert hp with hp' | hp'
      · rw [hp']
        exact h32 data
      · exact ihb p hp'
    | GetBlob hash =>
      show _ ∧ _
      rw [handle_request]
      cases get_blob s' hash <;> exact ⟨ihb, ihh⟩
    | HasBlob hash => exact ⟨ihb, ihh⟩
    | PutDocument id meta crdt_state =>
      refine ⟨ihb, ?_⟩
      intro p hp
      rcases mem_alInsert hp with hp' | hp'
      · rw [hp']
        exact h32 crdt_state
      · exact ihh p hp'
    | GetDocument id =>
      show _ ∧ _
      rw [handle_request]
      cases hgd : get_document s' id with
      | none => exact ⟨ihb, ihh⟩
      | some md =>
        obtain ⟨m, d⟩ := md
        exact ⟨ihb, ihh⟩
    | DeleteDocument id =>
      exact ⟨ihb, fun p hp => ihh p (mem_alRemove hp)⟩
    | ListDocuments => exact ⟨ihb, ihh⟩
    | GetRoots doc_ids => exact ⟨ihb, ihh⟩
    | GetChanges known_roots => exact ⟨ihb, ihh⟩
    | ApplyChanges changes => exact happly changes s' ihb ihh

/-! ## Concrete digest stand-in and sample states

`testDigest` is a 32-byte-valued executable stand-in for blake3, used
only to instantiate theorems at concrete inputs (witnesses and
counterexamples).  Like blake3, it is length-32 and order-sensitive on
concatenations; unlike blake3 it is of course not collision resistant. -/

/-- Concrete 32-byte digest stand-in (head byte, length byte, 30 zeros). -/
def testDigest (b : Bytes) : Bytes :=
  (b.headD 0 % 256) :: (b.length % 256) :: List.replicate 30 0

theorem testDigest_length (b : Bytes) : (testDigest b).length = 32 := by
  simp [testDigest]

/-- The store after one `PutDocument{id="a", meta=[1], crdt_state=[2]}`. -/
def storeA : Store :=
  (handle_request testDigest emptyStore (Request.PutDocument [97] [1] [2])).1

theorem storeA_reachable : Reachable testDigest storeA :=
  Reachable.step emptyStore (Request.PutDocument [97] [1] [2]) Reachable.init

/-- The store after one `ApplyChanges` whose single change advertises a
hash that is NOT the digest of its data. -/
def storeB : Store :=
  (handle_request testDigest emptyStore
    (Request.ApplyChanges [⟨[98], [7], List.replicate 32 5⟩])).1

theorem storeB_reachable : Reachable testDigest storeB :=
  Reachable.step emptyStore (Request.ApplyChanges [⟨[98], [7], List.replicate 32 5⟩])
    Reachable.init

/-! ## Claims -/

/-- C1: for every id, meta and state, after a successful
`put_document(id, meta, state)`, `get_document(id)` returns
`Some((meta, state))` byte-for-byte, and `get_doc_hash(id)` returns
`Some(digest(state))`. -/
theorem document_roundtrip (digest : Bytes → Bytes) (s : Store) (id meta crdt_state : Bytes) :
    get_document (put_document digest s id meta crdt_state) id = some (meta, crdt_state) ∧
    get_doc_hash (put_document digest s id meta crdt_state) id = some (digest crdt_state) := by
  constructor
  · show (match alLookup id (alInsert id meta s.documents),
        alLookup id (alInsert id crdt_state s.doc_data) with
      | some m, some d => some (m, d)
      | _, _ => none) = some (meta, crdt_state)
    rw [alLookup_insert_self, alLookup_insert_self]
  · show alLookup id (alInsert id (digest crdt_state) s.doc_hashes) = some (digest crdt_state)
    exact alLookup_insert_self id (digest crdt_state) s.doc_hashes

/-- C2: tri-consistency is an invariant preserved by every operation: in
every state reachable by committed operations, the `documents`,
`doc_data` and `doc_hashes` tables contain exactly the same ids (here:
identical key sequences). -/
theorem tri_consistency (digest : Bytes → Bytes) (s : Store) (hr : Reachable digest s) :
    s.documents.map Prod.fst = s.doc_data.map Prod.fst ∧
    s.doc_data.map Prod.fst = s.doc_hashes.map Prod.fst :=
  (reachable_inv hr).2.1

/-- Witness for C2 at the concrete reachable state `storeA`. -/
theorem tri_consistency_witness :
    storeA.documents.map Prod.fst = storeA.doc_data.map Prod.fst ∧
    storeA.doc_data.map Prod.fst = storeA.doc_hashes.map Prod.fst :=
  tri_consistency testDigest storeA storeA_reachable

/-- C3: in every reachable state the value in `doc_hashes` is the digest
of the value in `doc_data` — including states made by `ApplyChanges`
with a wrongly advertised hash, because the handler stores
`digest(change.data)` via `put_document` and never the advertised hash. -/
theorem stored_hash_is_digest (digest : Bytes → Bytes) (s : Store) (hr : Reachable digest s)
    (id hsh : Bytes) (hl : get_doc_hash s id = some hsh) :
    ∃ d, alLookup id s.doc_data = some d ∧ hsh = digest d :=
  (reachable_inv hr).2.2 id hsh hl

/-- Witness for C3 at `storeB`, which was produced by an `ApplyChanges`
whose change advertised the wrong hash `replicate 32 5` for data `[7]`;
the stored hash is nonetheless `testDigest [7]`. -/
theorem stored_hash_is_digest_witness :
    ∃ d, alLookup [98] storeB.doc_data = some d ∧ testDigest [7] = testDigest d :=
  stored_hash_is_digest testDigest storeB storeB_reachable [98] (testDigest [7]) (by decide)

/-! ## Reference Merkle construction (spec wording, §4.3)

The reference construction is stated independently of the code's loop:
"walk the layer in pairs" (`pairsOf`), "for each pair `(a, b)` emit
`digest(a ∥ b)`; if the layer length is odd, promote the final unpaired
element unchanged" (`specLayer`); "repeat until the layer has length 1"
(`specCollapse`). -/

/-- Walk a layer in adjacent pairs, returning the pairs and the final
unpaired element of an odd-length layer. -/
def pairsOf : List Bytes → List (Bytes × Bytes) × Option Bytes
  | [] => ([], none)
  | [a] => ([], some a)
  | a :: b :: rest =>
    let r := pairsOf rest
    ((a, b) :: r.1, r.2)

/-- One reference layer step: hash each adjacent pair, promote the odd
leftover unchanged. -/
def specLayer (digest : Bytes → Bytes) (l : List Bytes) : List Bytes :=
  (pairsOf l).1.map (fun q => digest (q.1 ++ q.2)) ++ (pairsOf l).2.toList

theorem specLayer_eq_hashLayer (digest : Bytes → Bytes) (l : List Bytes) :
    specLayer digest l = hashLayer digest l := by
  induction l using hashLayer.induct digest with
  | case1 => rfl
  | case2 a => rfl
  | case3 a b rest ih =>
    show specLayer digest (a :: b :: rest) = hashLayer digest (a :: b :: rest)
    rw [hashLayer, ← ih]
    simp [specLayer, pairsOf]

/-- Repeat the reference layer step until one element remains. -/
def specCollapse (digest : Bytes → Bytes) (layer : List Bytes) : Bytes :=
  if h : 1 < layer.length then specCollapse digest (specLayer digest layer)
  else layer.headD (List.replicate 32 0)
termination_by layer.length
decreasing_by
  rw [specLayer_eq_hashLayer, hashLayer_length]
  omega

theorem collapse_eq_specCollapse (digest : Bytes → Bytes) (l : List Bytes) (hne : l ≠ []) :
    collapse digest l = specCollapse digest l := by
  induction l using collapse.induct digest with
  | case1 => exact absurd rfl hne
  | case2 h =>
    rw [collapse, specCollapse]
    simp
  | case3 a b rest ih =>
    rw [collapse, specCollapse]
    have hlay : hashLayer digest (a :: b :: rest) = digest (a ++ b) :: hashLayer digest rest :=
      rfl
    rw [dif_pos (by simp)]
    rw [specLayer_eq_hashLayer]
    exact ih (by rw [hlay]; simp)

/-- C4: `compute_root` equals the reference construction: the all-zero
32-byte value on empty input; a singleton input returns its digest
unchanged; a nonempty input is sorted ascending by byte-wise id order
(characterised as a permutation of the input that is pairwise
`bytesLe` on ids) and then reduced by the reference pair-hash /
odd-promotion layering. -/
theorem compute_root_matches_reference (digest : Bytes → Bytes)
    (pairs : List (Bytes × Bytes)) :
    compute_root digest [] = List.replicate 32 0 ∧
    (∀ id h, compute_root digest [(id, h)] = h) ∧
    (pairs ≠ [] → ∃ srt : List (Bytes × Bytes), srt.Perm pairs ∧
      srt.Pairwise (fun a b => bytesLe a.1 b.1 = true) ∧
      compute_root digest pairs = specCollapse digest (srt.map Prod.snd)) := by
  have hkey : ∀ (q : List (Bytes × Bytes)), q ≠ [] →
      compute_root digest q = collapse digest ((sortByLe pairLe q).map Prod.snd) := by
    intro q hq
    cases q with
    | nil => exact absurd rfl hq
    | cons a t => rfl
  refine ⟨rfl, ?_, ?_⟩
  · intro id h
    rw [hkey [(id, h)] (by simp)]
    show collapse digest [h] = h
    rw [collapse]
  · intro hne
    refine ⟨sortByLe pairLe pairs, sortByLe_perm pairLe pairs, ?_, ?_⟩
    · exact sortByLe_pairwise pairLe (fun x y => bytesLe_total x.1 y.1)
        (fun x y z hxy hyz => bytesLe_trans hxy hyz) pairs
    · rw [hkey pairs hne]
      refine collapse_eq_specCollapse digest _ ?_
      have : (sortByLe pairLe pairs).length = pairs.length :=
        (sortByLe_perm pairLe pairs).length_eq
      intro hcon
      have h0 : sortByLe pairLe pairs = [] := by
        cases hsz : sortByLe pairLe pairs with
        | nil => rfl
        | cons a t =>
          rw [hsz] at hcon
          simp at hcon
      rw [h0] at this
      cases pairs with
      | nil => exact hne rfl
      | cons a t => simp at this

/-- Witness for C4's nonempty-input clause at a concrete singleton. -/
theorem compute_root_matches_reference_witness :
    ∃ srt : List (Bytes × Bytes), srt.Perm ([([97], [1])]) ∧
      srt.Pairwise (fun a b => bytesLe a.1 b.1 = true) ∧
      compute_root testDigest [([97], [1])] = specCollapse testDigest (srt.map Prod.snd) :=
  (compute_root_matches_reference testDigest [([97], [1])]).2.2 (by decide)

/-- Strict byte-wise order on the id component of a pair. -/
def keyLtP (a b : Bytes × Bytes) : Prop := bytesLt a.1 b.1 = true

instance : IsAntisymm (Bytes × Bytes) keyLtP :=
  ⟨fun a b hab hba => absurd hba (by simp [keyLtP, bytesLt_asymm hab])⟩

/-- C5 counterexample: `compute_root` is NOT invariant under every
permutation of every input sequence.  With two pairs sharing the id
`"a"` but carrying different 32-byte digests, the stable sort preserves
the input order of the equal-id pairs, so the two orders hash the two
digests in opposite concatenation order and give different roots (shown
for the concrete digest stand-in; blake3 likewise distinguishes the two
concatenation orders). -/
theorem compute_root_not_permutation_invariant :
    ([(([97] : Bytes), (2 :: List.replicate 31 0 : Bytes)), ([97], 1 :: List.replicate 31 0)]).Perm
      [([97], 1 :: List.replicate 31 0), ([97], 2 :: List.replicate 31 0)] ∧
    compute_root testDigest [([97], 2 :: List.replicate 31 0), ([97], 1 :: List.replicate 31 0)] ≠
      compute_root testDigest [([97], 1 :: List.replicate 31 0), ([97], 2 :: List.replicate 31 0)] := by
  refine ⟨List.Perm.swap _ _ _, ?_⟩
  have key : ∀ x y : Bytes,
      compute_root testDigest [([97], x), ([97], y)]
        = collapse testDigest ((sortByLe pairLe [(([97] : Bytes), x), ([97], y)]).map Prod.snd) :=
    fun x y => rfl
  rw [key, key]
  rw [show (sortByLe pairLe [(([97] : Bytes), (2 :: List.replicate 31 0 : Bytes)),
        ([97], 1 :: List.replicate 31 0)]).map Prod.snd
      = [2 :: List.replicate 31 0, 1 :: List.replicate 31 0] by decide]
  rw [show (sortByLe pairLe [(([97] : Bytes), (1 :: List.replicate 31 0 : Bytes)),
        ([97], 2 :: List.replicate 31 0)]).map Prod.snd
      = [1 :: List.replicate 31 0, 2 :: List.replicate 31 0] by decide]
  simp only [collapse, hashLayer]
  decide

/-- C5 amended: `compute_root` is permutation invariant on every input
whose doc ids are pairwise distinct (which the store guarantees, ids
being table keys): for any permutation of such a sequence the root is
unchanged. -/
theorem compute_root_perm_invariant_of_nodup (digest : Bytes → Bytes)
    (pairs pairs' : List (Bytes × Bytes)) (hperm : pairs'.Perm pairs)
    (hnd : (pairs.map Prod.fst).Nodup) :
    compute_root digest pairs' = compute_root digest pairs := by
  cases hp : pairs with
  | nil =>
    subst hp
    rw [hperm.eq_nil]
  | cons p t =>
    subst hp
    have hne : (p :: t) ≠ ([] : List (Bytes × Bytes)) := by simp
    have hne' : pairs' ≠ [] := by
      intro hcon
      rw [hcon] at hperm
      exact hne hperm.symm.eq_nil
    have hkey : ∀ (q : List (Bytes × Bytes)), q ≠ [] →
        compute_root digest q = collapse digest ((sortByLe pairLe q).map Prod.snd) := by
      intro q hq
      cases q with
      | nil => exact absurd rfl hq
      | cons a u => rfl
    have hsorted : ∀ (q : List (Bytes × Bytes)), (q.map Prod.fst).Nodup →
        (sortByLe pairLe q).Pairwise keyLtP := by
      intro q hq
      have hle : (sortByLe pairLe q).Pairwise (fun a b => pairLe a b = true) :=
        sortByLe_pairwise pairLe (fun x y => bytesLe_total x.1 y.1)
          (fun x y z hxy hyz => bytesLe_trans hxy hyz) q
      have hqnd : ((sortByLe pairLe q).map Prod.fst).Nodup :=
        ((sortByLe_perm pairLe q).map Prod.fst).symm.nodup hq
      have hne2 : (sortByLe pairLe q).Pairwise (fun a b => a.1 ≠ b.1) :=
        List.pairwise_map.mp hqnd
      exact (hle.and hne2).imp (fun hab => bytesLt_of_le_of_ne hab.1 hab.2)
    have hnd' : (pairs'.map Prod.fst).Nodup := ((hperm.map Prod.fst).symm.nodup hnd)
    have heq : sortByLe pairLe pairs' = sortByLe pairLe (p :: t) := by
      refine List.eq_of_perm_of_sorted ?_ (hsorted pairs' hnd') (hsorted (p :: t) hnd)
      exact (sortByLe_perm pairLe pairs').trans (hperm.trans (sortByLe_perm pairLe (p :: t)).symm)
    rw [hkey pairs' hne', hkey (p :: t) hne, heq]

/-- Witness for C5's amended statement: two distinct-id pairs swapped. -/
theorem compute_root_perm_invariant_witness :
    compute_root testDigest [([98], [2]), ([97], [1])]
      = compute_root testDigest [([97], [1]), ([98], [2])] :=
  compute_root_perm_invariant_of_nodup testDigest
    [(([97] : Bytes), ([1] : Bytes)), ([98], [2])] [([98], [2]), ([97], [1])]
    (List.Perm.swap _ _ _) (by decide)

theorem alLookup_key_mem {k v : Bytes} {l : Table} (h : alLookup k l = some v) :
    k ∈ l.map Prod.fst :=
  List.mem_map.mpr ⟨(k, v), alLookup_mem h, rfl⟩

theorem diff_roots_mem_send (lcl rmt : List (Bytes × Bytes)) (k : Bytes) :
    k ∈ (diff_roots lcl rmt).1 ↔
      (k ∈ lcl.map Prod.fst ∨ k ∈ rmt.map Prod.fst) ∧ sendCond lcl rmt k = true := by
  show k ∈ sortByLe bytesLe
      (((lcl.map Prod.fst ++ rmt.map Prod.fst).dedup).filter (sendCond lcl rmt)) ↔ _
  rw [(sortByLe_perm bytesLe _).mem_iff, List.mem_filter, List.mem_dedup, List.mem_append]

theorem diff_roots_mem_request (lcl rmt : List (Bytes × Bytes)) (k : Bytes) :
    k ∈ (diff_roots lcl rmt).2 ↔
      (k ∈ lcl.map Prod.fst ∨ k ∈ rmt.map Prod.fst) ∧ requestCond lcl rmt k = true := by
  show k ∈ sortByLe bytesLe
      (((lcl.map Prod.fst ++ rmt.map Prod.fst).dedup).filter (requestCond lcl rmt)) ↔ _
  rw [(sortByLe_perm bytesLe _).mem_iff, List.mem_filter, List.mem_dedup, List.mem_append]

theorem sortByLe_bytes_strict (l : List Bytes) (hnd : l.Nodup) :
    (sortByLe bytesLe l).Pairwise (fun a b => bytesLt a b = true) := by
  have hle := sortByLe_pairwise bytesLe bytesLe_total
    (fun x y z hxy hyz => bytesLe_trans hxy hyz) l
  have hnd' : (sortByLe bytesLe l).Pairwise (fun a b => a ≠ b) :=
    (sortByLe_perm bytesLe l).symm.nodup hnd
  exact (hle.and hnd').imp (fun hab => bytesLt_of_le_of_ne hab.1 hab.2)

/-- C6: for inputs with unique ids per side, `diff_roots` classifies each
id of the union exactly as the spec's four cases describe (equal digests
→ neither output; differing digests → both; only local → `to_send` only;
only remote → `to_request` only), and both outputs are strictly
ascending in byte-wise id order. -/
theorem diff_roots_correct (lcl rmt : List (Bytes × Bytes))
    (hndl : (lcl.map Prod.fst).Nodup) (hndr : (rmt.map Prod.fst).Nodup) :
    (∀ k lh rh, alLookup k lcl = some lh → alLookup k rmt = some rh → lh = rh →
      k ∉ (diff_roots lcl rmt).1 ∧ k ∉ (diff_roots lcl rmt).2) ∧
    (∀ k lh rh, alLookup k lcl = some lh → alLookup k rmt = some rh → lh ≠ rh →
      k ∈ (diff_roots lcl rmt).1 ∧ k ∈ (diff_roots lcl rmt).2) ∧
    (∀ k lh, alLookup k lcl = some lh → alLookup k rmt = none →
      k ∈ (diff_roots lcl rmt).1 ∧ k ∉ (diff_roots lcl rmt).2) ∧
    (∀ k rh, alLookup k rmt = some rh → alLookup k lcl = none →
      k ∉ (diff_roots lcl rmt).1 ∧ k ∈ (diff_roots lcl rmt).2) ∧
    (diff_roots lcl rmt).1.Pairwise (fun a b => bytesLt a b = true) ∧
    (diff_roots lcl rmt).2.Pairwise (fun a b => bytesLt a b = true) := by
  refine ⟨?_, ?_, ?_, ?_, ?_, ?_⟩
  · intro k lh rh hkl hkr heq
    constructor
    · intro hmem
      have := ((diff_roots_mem_send lcl rmt k).mp hmem).2
      rw [sendCond, hkl, hkr] at this
      simp [heq] at this
    · intro hmem
      have := ((diff_roots_mem_request lcl rmt k).mp hmem).2
      rw [requestCond, hkl, hkr] at this
      simp [heq] at this
  · intro k lh rh hkl hkr hne
    constructor
    · refine (diff_roots_mem_send lcl rmt k).mpr ⟨Or.inl (alLookup_key_mem hkl), ?_⟩
      rw [sendCond, hkl, hkr]
      simp [hne]
    · refine (diff_roots_mem_request lcl rmt k).mpr ⟨Or.inl (alLookup_key_mem hkl), ?_⟩
      rw [requestCond, hkl, hkr]
      simp [hne]
  · intro k lh hkl hkr
    constructor
    · refine (diff_roots_mem_send lcl rmt k).mpr ⟨Or.inl (alLookup_key_mem hkl), ?_⟩
      rw [sendCond, hkl, hkr]
    · intro hmem
      have := ((diff_roots_mem_request lcl rmt k).mp hmem).2
      rw [requestCond, hkl, hkr] at this
      simp at this
  · intro k rh hkr hkl
    constructor
    · intro hmem
      have := ((diff_roots_mem_send lcl rmt k).mp hmem).2
      rw [sendCond, hkl, hkr] at this
      simp at this
    · refine (diff_roots_mem_request lcl rmt k).mpr ⟨Or.inr (alLookup_key_mem hkr), ?_⟩
      rw [requestCond, hkl, hkr]
  · exact sortByLe_bytes_strict _ (List.Nodup.filter _ (List.nodup_dedup _))
  · exact sortByLe_bytes_strict _ (List.Nodup.filter _ (List.nodup_dedup _))

/-- Witness for C6 at the concrete inputs of the repo's own
`test_diff_roots` scenario. -/
theorem diff_roots_correct_witness :
    (∀ k lh rh, alLookup k [(([1] : Bytes), ([10] : Bytes)), ([2], [20])] = some lh →
      alLookup k [(([2] : Bytes), ([20] : Bytes)), ([3], [30])] = some rh → lh = rh →
      k ∉ (diff_roots [([1], [10]), ([2], [20])] [([2], [20]), ([3], [30])]).1 ∧
      k ∉ (diff_roots [([1], [10]), ([2], [20])] [([2], [20]), ([3], [30])]).2) ∧
    (∀ k lh rh, alLookup k [(([1] : Bytes), ([10] : Bytes)), ([2], [20])] = some lh →
      alLookup k [(([2] : Bytes), ([20] : Bytes)), ([3], [30])] = some rh → lh ≠ rh →
      k ∈ (diff_roots [([1], [10]), ([2], [20])] [([2], [20]), ([3], [30])]).1 ∧
      k ∈ (diff_roots [([1], [10]), ([2], [20])] [([2], [20]), ([3], [30])]).2) ∧
    (∀ k lh, alLookup k [(([1] : Bytes), ([10] : Bytes)), ([2], [20])] = some lh →
      alLookup k [(([2] : Bytes), ([20] : Bytes)), ([3], [30])] = none →
      k ∈ (diff_roots [([1], [10]), ([2], [20])] [([2], [20]), ([3], [30])]).1 ∧
      k ∉ (diff_roots [([1], [10]), ([2], [20])] [([2], [20]), ([3], [30])]).2) ∧
    (∀ k rh, alLookup k [(([2] : Bytes), ([20] : Bytes)), ([3], [30])] = some rh →
      alLookup k [(([1] : Bytes), ([10] : Bytes)), ([2], [20])] = none →
      k ∉ (diff_roots [([1], [10]), ([2], [20])] [([2], [20]), ([3], [30])]).1 ∧
      k ∈ (diff_roots [([1], [10]), ([2], [20])] [([2], [20]), ([3], [30])]).2) ∧
    (diff_roots [([1], [10]), ([2], [20])] [([2], [20]), ([3], [30])]).1.Pairwise
      (fun a b => bytesLt a b = true) ∧
    (diff_roots [([1], [10]), ([2], [20])] [([2], [20]), ([3], [30])]).2.Pairwise
      (fun a b => bytesLt a b = true) :=
  diff_roots_correct [([1], [10]), ([2], [20])] [([2], [20]), ([3], [30])]
    (by decide) (by decide)

theorem filterMap_doc_id_sublist (l : Table) (g : Bytes × Bytes → Option Change)
    (hg : ∀ p c, g p = some c → c.doc_id = p.1) :
    List.Sublist ((l.filterMap g).map Change.doc_id) (l.map Prod.fst) := by
  induction l with
  | nil => simp
  | cons p rest ih =>
    cases hgp : g p with
    | none =>
      rw [List.filterMap_cons_none hgp]
      exact ih.trans (List.sublist_cons_self p.1 (rest.map Prod.fst))
    | some c =>
      rw [List.filterMap_cons_some hgp]
      simp only [List.map_cons, hg p c hgp]
      exact ih.cons₂ p.1

/-- C7: in every reachable state, `GetChanges{known_roots}` replies
`Changes{changes}` holding exactly one `Change` per stored document whose
`state_hash` is not in `known_roots`; each change carries the document's
id, its `crdt_state` as `data` and its `state_hash` as `hash` (the
`Change` record has no metadata field at all); documents whose hash is
known produce no change. -/
theorem get_changes_spec (digest : Bytes → Bytes) (s : Store) (hr : Reachable digest s)
    (known_roots : List Bytes) :
    ∃ cs : List Change,
      handle_request digest s (Request.GetChanges known_roots) = (s, Response.Changes cs) ∧
      (∀ id d h, (Change.mk id d h) ∈ cs ↔
        (alLookup id s.doc_hashes = some h ∧ h ∉ known_roots ∧
          alLookup id s.doc_data = some d)) ∧
      (cs.map Change.doc_id).Nodup := by
  obtain ⟨⟨hwb, hwd, hwdd, hwdh⟩, ⟨ht1, ht2⟩, hhash⟩ := reachable_inv hr
  refine ⟨_, rfl, ?_, ?_⟩
  · intro id d h
    rw [List.mem_filterMap]
    constructor
    · rintro ⟨⟨pid, ph⟩, hpmem, hpf⟩
      by_cases hk : ph ∈ known_roots
      · simp [hk] at hpf
      · rw [show (if (pid, ph).2 ∈ known_roots then (none : Option Change)
            else
              match get_document s (pid, ph).1 with
              | some (_, crdt_state) => some (Change.mk (pid, ph).1 crdt_state (pid, ph).2)
              | none => none) =
            (match get_document s pid with
              | some (_, crdt_state) => some (Change.mk pid crdt_state ph)
              | none => none) from if_neg hk] at hpf
        cases hgd : get_document s pid with
        | none => rw [hgd] at hpf; simp at hpf
        | some md =>
          obtain ⟨m, dd⟩ := md
          rw [hgd] at hpf
          simp only [Option.some.injEq, Change.mk.injEq] at hpf
          obtain ⟨hid, hdd, hph⟩ := hpf
          subst hid
          subst hph
          have hdata : alLookup pid s.doc_data = some dd := by
            unfold get_document at hgd
            cases h1 : alLookup pid s.documents with
            | none => rw [h1] at hgd; simp at hgd
            | some m' =>
              cases h2 : alLookup pid s.doc_data with
              | none => rw [h1, h2] at hgd; simp at hgd
              | some d' =>
                rw [h1, h2] at hgd
                simp only [Option.some.injEq, Prod.mk.injEq] at hgd
                rw [hgd.2]
          subst hdd
          exact ⟨mem_alLookup hwdh hpmem, hk, hdata⟩
    · rintro ⟨hh, hnk, hd⟩
      refine ⟨(id, h), alLookup_mem hh, ?_⟩
      have hdocmem : id ∈ s.documents.map Prod.fst := by
        have := alLookup_key_mem hh
        rw [← ht2, ← ht1] at this
        exact this
      rcases alLookup_isSome_of_key_mem hdocmem with ⟨m, hm⟩
      have hgd : get_document s id = some (m, d) := by
        unfold get_document
        rw [hm, hd]
      show (if h ∈ known_roots then none else _) = _
      rw [if_neg hnk, hgd]
  · have hg : ∀ (p : Bytes × Bytes) (c : Change),
        (if p.2 ∈ known_roots then none
         else
           match get_document s p.1 with
           | some (_, crdt_state) => some (Change.mk p.1 crdt_state p.2)
           | none => none) = some c → c.doc_id = p.1 := by
      intro p c hpc
      by_cases hk : p.2 ∈ known_roots
      · rw [if_pos hk] at hpc
        exact absurd hpc (by simp)
      · rw [if_neg hk] at hpc
        cases hgd : get_document s p.1 with
        | none => rw [hgd] at hpc; simp at hpc
        | some md =>
          obtain ⟨m, dd⟩ := md
          rw [hgd] at hpc
          simp only [Option.some.injEq] at hpc
          rw [← hpc]
    have hsub := filterMap_doc_id_sublist s.doc_hashes _ hg
    have hpw : (s.doc_hashes.map Prod.fst).Pairwise (fun a b => bytesLt a b = true) :=
      List.pairwise_map.mpr hwdh
    have hpwlt := hpw.sublist hsub
    exact hpwlt.imp (fun hlt heq => by
      subst heq
      simp [bytesLt_irrefl] at hlt)

/-- Witness for C7 at the concrete reachable state `storeA` and a known
set containing an unrelated root. -/
theorem get_changes_spec_witness :
    ∃ cs : List Change,
      handle_request testDigest storeA (Request.GetChanges [[5]]) =
        (storeA, Response.Changes cs) ∧
      (∀ id d h, (Change.mk id d h) ∈ cs ↔
        (alLookup id storeA.doc_hashes = some h ∧ h ∉ ([[5]] : List Bytes) ∧
          alLookup id storeA.doc_data = some d)) ∧
      (cs.map Change.doc_id).Nodup :=
  get_changes_spec testDigest storeA storeA_reachable [[5]]

/-- C8 counterexample: a digest-valued field whose length is not 32
bytes is NOT treated as invalid — the core processes it as an ordinary
byte string.  `HasBlob` with a 0-byte hash answers `BlobExists{false}`
(an ordinary reply, not an error), and `ApplyChanges` whose change
advertises a 2-byte hash applies the change and answers `Ok`. -/
theorem digest_length_not_validated :
    (handle_request testDigest emptyStore (Request.HasBlob [])).2
      = Response.BlobExists false ∧
    (handle_request testDigest emptyStore
      (Request.ApplyChanges [Change.mk [98] [7] [9, 9]])).2 = Response.Ok :=
  ⟨rfl, rfl⟩

/-- C8 amended: the core performs no digest length validation; instead,
because every digest it ever stores is exactly 32 bytes, a wrong-length
value simply never matches anything: blob lookups miss (`GetBlob` →
`NotFound`, `HasBlob` → `false`) and no stored state hash ever equals
it (so a wrong-length `known_root` suppresses nothing and a
wrong-length change hash never causes a skip). -/
theorem wrong_length_digest_never_matches (digest : Bytes → Bytes)
    (h32 : ∀ b, (digest b).length = 32) (s : Store) (hr : Reachable digest s)
    (h : Bytes) (hlen : h.length ≠ 32) :
    get_blob s h = none ∧ has_blob s h = false ∧ (∀ id, get_doc_hash s id ≠ some h) := by
  obtain ⟨hb, hh⟩ := reachable_digest_lengths h32 hr
  have hblob : alLookup h s.blobs = none := by
    cases hq : alLookup h s.blobs with
    | none => rfl
    | some v =>
      have hm := alLookup_mem hq
      exact absurd (hb (h, v) hm) hlen
  refine ⟨hblob, ?_, ?_⟩
  · show (alLookup h s.blobs).isSome = false
    rw [hblob]
    rfl
  · intro id hq
    have hm := alLookup_mem hq
    exact hlen (hh (id, h) hm)

/-- Witness for C8's amended statement at `storeA` and a 0-byte hash. -/
theorem wrong_length_digest_never_matches_witness :
    get_blob storeA [] = none ∧ has_blob storeA [] = false ∧
      (∀ id, get_doc_hash storeA id ≠ some []) :=
  wrong_length_digest_never_matches testDigest (fun b => testDigest_length b) storeA
    storeA_reachable [] (by decide)

/-- C10: `ApplyChanges` is not atomic across its batch: each non-skipped
change commits in its own write transaction in batch order, so when the
handler returns `Error{message}` after some change's transaction fails,
the resulting store is exactly the one obtained by applying a proper
prefix of the batch — earlier changes stay committed, later ones stay
unapplied. -/
theorem apply_changes_prefix_commit (digest : Bytes → Bytes) (s : Store) (oracle : List Bool)
    (cs : List Change) (sEnd : Store) (oracleEnd : List Bool) (m : String)
    (herr : applyChangesOr digest s oracle cs = (sEnd, oracleEnd, Response.Error m)) :
    ∃ i, i < cs.length ∧ sEnd = applyChangesPure digest s (cs.take i) := by
  induction cs generalizing s oracle with
  | nil => simp [applyChangesOr] at herr
  | cons c rest ih =>
    cases hgd : get_doc_hash s c.doc_id with
    | some existing =>
      by_cases hh : existing = c.hash
      · simp only [applyChangesOr, hgd, if_pos hh] at herr
        rcases ih s oracle herr with ⟨i, hi, hs⟩
        refine ⟨i + 1, by simpa using Nat.succ_lt_succ hi, ?_⟩
        rw [List.take_succ_cons]
        have hpure : applyChangesPure digest s (c :: rest.take i)
            = applyChangesPure digest s (rest.take i) := by
          simp only [applyChangesPure, hgd, if_pos hh]
        rw [hpure]
        exact hs
      · by_cases hor : oracle.headD false = true
        · simp only [applyChangesOr, hgd, if_neg hh, hor, if_true] at herr
          refine ⟨0, by simp, ?_⟩
          simp only [List.take_zero, applyChangesPure]
          have := congrArg (fun t : Store × List Bool × Response => t.1) herr
          simpa using this.symm
        · simp only [Bool.not_eq_true] at hor
          simp only [applyChangesOr, hgd, if_neg hh, hor, Bool.false_eq_true, if_false] at herr
          rcases ih (put_document digest s c.doc_id [] c.data) oracle.tail herr with ⟨i, hi, hs⟩
          refine ⟨i + 1, by simpa using Nat.succ_lt_succ hi, ?_⟩
          rw [List.take_succ_cons]
          have hpure : applyChangesPure digest s (c :: rest.take i)
              = applyChangesPure digest (put_document digest s c.doc_id [] c.data)
                  (rest.take i) := by
            simp only [applyChangesPure, hgd, if_neg hh]
          rw [hpure]
          exact hs
    | none =>
      by_cases hor : oracle.headD false = true
      · simp only [applyChangesOr, hgd, hor, if_true] at herr
        refine ⟨0, by simp, ?_⟩
        simp only [List.take_zero, applyChangesPure]
        have := congrArg (fun t : Store × List Bool × Response => t.1) herr
        simpa using this.symm
      · simp only [Bool.not_eq_true] at hor
        simp only [applyChangesOr, hgd, hor, Bool.false_eq_true, if_false] at herr
        rcases ih (put_document digest s c.doc_id [] c.data) oracle.tail herr with ⟨i, hi, hs⟩
        refine ⟨i + 1, by simpa using Nat.succ_lt_succ hi, ?_⟩
        rw [List.take_succ_cons]
        have hpure : applyChangesPure digest s (c :: rest.take i)
            = applyChangesPure digest (put_document digest s c.doc_id [] c.data)
                (rest.take i) := by
          simp only [applyChangesPure, hgd]
        rw [hpure]
        exact hs

/-- Witness for C10: a one-change batch whose only commit fails leaves
the empty store unchanged (the empty prefix was applied). -/
theorem apply_changes_prefix_commit_witness :
    ∃ i, i < ([Change.mk [98] [7] [9]] : List Change).length ∧
      emptyStore = applyChangesPure testDigest emptyStore
        (([Change.mk [98] [7] [9]] : List Change).take i) :=
  apply_changes_prefix_commit testDigest emptyStore [true] [Change.mk [98] [7] [9]]
    emptyStore [] "commit failed" rfl

theorem runSession_eof (digest : Bytes → Bytes) (decode : List Nat → Option (Nat × Request))
    (encode : Nat → Response → List Nat) (s : Store) (input : List Nat)
    (h4 : input.length < 4) :
    runSession digest decode encode s input = Except.ok (s, []) := by
  rw [runSession]
  have hrf : read_frame input = Except.ok none := by
    unfold read_frame
    rw [if_pos h4]
  split
  · next e heq => rw [hrf] at heq; exact absurd heq (by simp)
  · rfl
  · next frame rest heq => rw [hrf] at heq; exact absurd heq (by simp)

theorem runSession_body_short (digest : Bytes → Bytes)
    (decode : List Nat → Option (Nat × Request)) (encode : Nat → Response → List Nat)
    (s : Store) (input : List Nat) (h4 : 4 ≤ input.length)
    (hlen : (input.drop 4).length < beU32 (input.take 4)) :
    runSession digest decode encode s input = Except.error "reading frame body" := by
  rw [runSession]
  have hrf : read_frame input = Except.error "reading frame body" := by
    unfold read_frame
    rw [if_neg (by omega), if_pos hlen]
  split
  · next e heq =>
    rw [hrf] at heq
    injection heq with h'
    rw [← h']
  · next heq =>
    rw [hrf] at heq
    exact absurd heq (by simp)
  · next frame rest heq =>
    rw [hrf] at heq
    exact absurd heq (by simp)

theorem runSession_decode_failure (digest : Bytes → Bytes)
    (decode : List Nat → Option (Nat × Request)) (encode : Nat → Response → List Nat)
    (s : Store) (input frame rest : List Nat)
    (hrf : read_frame input = Except.ok (some (frame, rest))) (hdec : decode frame = none) :
    runSession digest decode encode s input = Except.error "decoding request frame" := by
  rw [runSession]
  split
  · next e heq =>
    rw [hrf] at heq
    exact absurd heq (by simp)
  · next heq =>
    rw [hrf] at heq
    exact absurd heq (by simp)
  · next frame' rest' heq =>
    rw [hrf] at heq
    simp only [Except.ok.injEq, Option.some.injEq, Prod.mk.injEq] at heq
    obtain ⟨hf1, _⟩ := heq
    rw [← hf1, hdec]

/-- C9 counterexample: a short read is NOT always fatal.  A 1-byte input
ends partway through the 4-byte length prefix, yet the session ends via
the clean-EOF path (`Except.ok`, process exit code 0), because
`read_frame` maps `UnexpectedEof` from the length-prefix `read_exact` to
`Ok(None)` no matter how many of the 4 bytes had already arrived. -/
theorem truncated_length_prefix_exits_cleanly :
    runSession testDigest (fun _ => none) (fun _ _ => []) emptyStore [0]
      = Except.ok (emptyStore, []) :=
  runSession_eof testDigest (fun _ => none) (fun _ _ => []) emptyStore [0] (by decide)

/-- C9 amended: an input ending inside the 4-byte length prefix (fewer
than 4 bytes remaining) is treated as clean EOF and the session ends
with exit code 0; the genuinely fatal transport errors are a payload
shorter than the announced length (`reading frame body`) and a decode
failure on a received frame (`decoding request frame`), which end the
session with a non-zero exit. -/
theorem framing_error_behavior (digest : Bytes → Bytes)
    (decode : List Nat → Option (Nat × Request)) (encode : Nat → Response → List Nat)
    (s : Store) (input : List Nat) :
    (input.length < 4 → runSession digest decode encode s input = Except.ok (s, [])) ∧
    (4 ≤ input.length → (input.drop 4).length < beU32 (input.take 4) →
      runSession digest decode encode s input = Except.error "reading frame body") ∧
    (∀ frame rest, read_frame input = Except.ok (some (frame, rest)) → decode frame = none →
      runSession digest decode encode s input = Except.error "decoding request frame") :=
  ⟨fun h4 => runSession_eof digest decode encode s input h4,
   fun h4 hlen => runSession_body_short digest decode encode s input h4 hlen,
   fun frame rest hrf hdec =>
     runSession_decode_failure digest decode encode s input frame rest hrf hdec⟩

/-- Witness for C9's amended statement: a well-formed empty frame whose
payload fails to decode is fatal. -/
theorem framing_error_behavior_witness :
    runSession testDigest (fun _ => none) (fun _ _ => []) emptyStore [0, 0, 0, 0]
      = Except.error "decoding request frame" :=
  (framing_error_behavior testDigest (fun _ => none) (fun _ _ => []) emptyStore
    [0, 0, 0, 0]).2.2 [] [] rfl rfl
